import Mathlib

/-!
Verification of the whisperdesk-diarization core pipeline.

Shallow embedding of the C++ sources, translated function by function:

* `Utils.Math.find_peaks`           — src/utils.cpp, lines 373–395
* segmentation window scoring       — src/speaker-segmenter.cpp, `process_window`, lines 239–292
* change-point post-processing      — src/speaker-segmenter.cpp, `detect_change_points`, lines 139–151 and 170–174
* `create_segments`                 — src/diarize-cli.cpp, lines 105–180
* `find_or_create_speaker` and the clustering state — src/speaker-embedder.cpp, lines 126–256
* `assign_speakers`                 — src/diarize-cli.cpp, lines 182–227
* `validate_threshold`              — src/diarize-cli.cpp, `main`, lines 241–250

C++ `float` values are modelled as exact rationals (ℚ) where the code only
adds, compares and scales them, and as real numbers (ℝ) where the code uses
`exp`, `log` or `sqrt`.  `size_t`/`int` loop indices are ℕ/ℤ; the `size_t`
subtractions that would underflow on an empty input are written with
truncating ℕ subtraction, and the theorems that depend on them carry the
non-emptiness hypothesis under which the two agree.
-/

namespace Utils

namespace Math

/-- src/utils.cpp lines 373–395.  `find_peaks(signal, threshold, min_distance)`:
index `i` runs over `[min_distance, signal.size() - min_distance)`; `i` is kept
when `signal[i] > threshold` and no `j ≠ i` within `min_distance` of `i` has
`signal[j] >= signal[i]` (the C++ `is_peak` flag, written here as its positive
form `signal[j] < signal[i]`). -/
def find_peaks (signal : List ℚ) (threshold : ℚ) (min_distance : ℕ) : List ℕ :=
  (List.range' min_distance (signal.length - min_distance - min_distance)).filter fun i =>
    decide (signal.getD i 0 > threshold) &&
      (List.range' (i - min_distance) (2 * min_distance + 1)).all fun j =>
        j == i || decide (signal.getD j 0 < signal.getD i 0)

end Math

end Utils

/-- src/speaker-segmenter.cpp lines 139–151: the inline peak scan of
`detect_change_points`, restricted to the indices it keeps (the code pushes
`all_timestamps[i]` for each kept index `i`).  The loop runs `i` from 1 while
`i < all_probabilities.size() - 1` and keeps `i` when
`all_probabilities[i] > adaptive_threshold` and `all_probabilities[i]` exceeds
both neighbours. -/
def inline_peak_indices (all_probabilities : List ℚ) (adaptive_threshold : ℚ) : List ℕ :=
  (List.range' 1 (all_probabilities.length - 1 - 1)).filter fun i =>
    decide (all_probabilities.getD i 0 > adaptive_threshold) &&
      decide (all_probabilities.getD i 0 > all_probabilities.getD (i - 1) 0) &&
      decide (all_probabilities.getD i 0 > all_probabilities.getD (i + 1) 0)

/-- src/speaker-segmenter.cpp lines 172–173: the predicate of `std::unique`,
`[](float a, float b) { return std::abs(a - b) < 1.0f; }`, applied the way
`std::unique` applies it: each remaining element is compared with the last
KEPT element (the anchor), and dropped when the predicate holds. -/
def unique_close (anchor : ℚ) : List ℚ → List ℚ
  | [] => []
  | x :: xs => if |x - anchor| < 1 then unique_close anchor xs else x :: unique_close x xs

/-- src/speaker-segmenter.cpp lines 170–174: `std::sort` then `std::unique`
with the 1.0-second closeness predicate, then `erase` — the post-processing
applied to the candidate change points of every `detect_change_points` run. -/
def dedup_change_points (change_points : List ℚ) : List ℚ :=
  match List.insertionSort (· ≤ ·) change_points with
  | [] => []
  | x :: xs => x :: unique_close x xs

/-!  ## Segmentation window scoring (src/speaker-segmenter.cpp, process_window)

A window's model output is a list of frames, each frame a class-score vector
read through `frame.getD c 0` for `c < num_classes` (the tensor guarantees
every frame holds exactly `num_classes` scores).  Scores are modelled in ℝ
because the code takes `exp` and `log` of them. -/

/-- src/speaker-segmenter.cpp lines 244–253: the inner scan of the
dominant-class loop.  Starting from `(max_logit, dominant_class)`, each class
`c` replaces the pair exactly when its score is strictly greater — ties keep
the earlier class. -/
noncomputable def class_scan (score : ℕ → ℝ) : List ℕ → ℝ × ℤ → ℝ × ℤ
  | [], acc => acc
  | c :: cs, acc =>
    class_scan score cs (if score c > acc.1 then (score c, (c : ℤ)) else acc)

/-- src/speaker-segmenter.cpp lines 244–253: `(max_logit, dominant_class)` of
one frame — the scan starts at class 0 with `max_logit = output_data[t*C+0]`
and runs `c` over `[1, num_classes)`. -/
noncomputable def dominant_scan (num_classes : ℕ) (frame : List ℝ) : ℝ × ℤ :=
  class_scan (fun c => frame.getD c 0) (List.range' 1 (num_classes - 1)) (frame.getD 0 0, 0)

/-- src/speaker-segmenter.cpp lines 262–266: `sum_exp`, the softmax
denominator with the max score subtracted before exponentiating. -/
noncomputable def sum_exp (num_classes : ℕ) (frame : List ℝ) : ℝ :=
  ((List.range num_classes).map fun c =>
    Real.exp (frame.getD c 0 - (dominant_scan num_classes frame).1)).sum

/-- src/speaker-segmenter.cpp lines 268–273: the entropy accumulation.  Each
class contributes `-p * log p` ONLY when its softmax probability exceeds
`1e-6`; smaller probabilities are skipped. -/
noncomputable def entropy_acc (num_classes : ℕ) (frame : List ℝ) : ℝ :=
  (List.range num_classes).foldl
    (fun acc c =>
      let p := Real.exp (frame.getD c 0 - (dominant_scan num_classes frame).1) /
        sum_exp num_classes frame
      if p > 1 / 1000000 then acc - p * Real.log p else acc)
    0

/-- src/speaker-segmenter.cpp lines 255–282: `change_prob` of one frame given
`prev_dominant_class`.  Zero when `prev == -1` or the dominant class repeats;
otherwise the entropy score `min(1, entropy / log(num_classes))` is computed
and then, the dominant class being different, doubled and clipped again. -/
noncomputable def change_prob (num_classes : ℕ) (prev_dominant_class : ℤ) (frame : List ℝ) : ℝ :=
  if prev_dominant_class ≠ -1 ∧ prev_dominant_class ≠ (dominant_scan num_classes frame).2 then
    min 1 (min 1 (entropy_acc num_classes frame / Real.log num_classes) * 2)
  else 0

/-- src/speaker-segmenter.cpp lines 240–292: the per-frame loop of
`process_window`, threading `prev_dominant_class` and collecting
`change_probabilities`. -/
noncomputable def window_scores_from (num_classes : ℕ) (prev_dominant_class : ℤ) :
    List (List ℝ) → List ℝ
  | [] => []
  | frame :: rest =>
    change_prob num_classes prev_dominant_class frame ::
      window_scores_from num_classes (dominant_scan num_classes frame).2 rest

/-- src/speaker-segmenter.cpp line 240: `process_window` starts every window
with `prev_dominant_class = -1`. -/
noncomputable def process_window_scores (num_classes : ℕ) (frames : List (List ℝ)) : List ℝ :=
  window_scores_from num_classes (-1) frames

/-- src/speaker-segmenter.cpp lines 95–105: `detect_change_points` accumulates
`all_probabilities` by appending each window's `process_window` output in
window order. -/
noncomputable def accumulated_scores (num_classes : ℕ) (windows : List (List (List ℝ))) :
    List ℝ :=
  (windows.map (process_window_scores num_classes)).flatten

/-!  ## Segment construction (src/diarize-cli.cpp, create_segments) -/

/-- src/include/diarize-cli.h lines 20–27, the fields `create_segments`
writes.  `speaker_id` and `confidence` are assigned later, by
`assign_speakers`, whose per-segment outcomes are returned as a parallel list
(see `assign_speakers` below) because confidence is real-valued. -/
structure AudioSegment where
  samples : List ℚ
  start_time : ℚ
  end_time : ℚ
deriving DecidableEq

/-- Source expression `static_cast<float>(audio.size()) / options.sample_rate` (src/diarize-cli.cpp
line 110). -/
def total_duration (audio : List ℚ) (sample_rate : ℕ) : ℚ :=
  (audio.length : ℚ) / sample_rate

/-- Source expression `segment.samples.assign(audio.begin() + start_sample, audio.begin() + end_sample)`. -/
def sample_slice (audio : List ℚ) (start_sample end_sample : ℕ) : List ℚ :=
  (audio.drop start_sample).take (end_sample - start_sample)

/-- Source expression `static_cast<size_t>(t * options.sample_rate)` for a non-negative time `t`. -/
def to_sample (t : ℚ) (sample_rate : ℕ) : ℕ :=
  ⌊t * (sample_rate : ℚ)⌋₊

/-- src/diarize-cli.cpp lines 118–139: the fixed-window fallback loop
`for (float start = 0.0f; start < total_duration - 5.0f; start += 25.0f)`.
`fuel` bounds the number of iterations; every caller passes enough for the
loop to stop by its own condition. -/
def fixed_segments (audio : List ℚ) (sample_rate : ℕ) (td : ℚ) (start : ℚ) :
    ℕ → List AudioSegment
  | 0 => []
  | fuel + 1 =>
    if start < td - 5 then
      let e := min (start + 25) td
      let start_sample := to_sample start sample_rate
      let end_sample := to_sample e sample_rate
      (if end_sample ≤ audio.length ∧ start_sample < end_sample then
        [{ samples := sample_slice audio start_sample end_sample,
           start_time := start, end_time := e }]
       else []) ++
      fixed_segments audio sample_rate td (start + 25) fuel
    else []

/-- src/diarize-cli.cpp lines 157–177: the loop over consecutive boundary
pairs; a pair closer than 2.0 s is skipped, otherwise the segment is emitted
when its sample range is available. -/
def segments_between (audio : List ℚ) (sample_rate : ℕ) : List ℚ → List AudioSegment
  | b0 :: b1 :: rest =>
    (if b1 - b0 < 2 then []
     else
       let start_sample := to_sample b0 sample_rate
       let end_sample := to_sample b1 sample_rate
       if end_sample ≤ audio.length ∧ start_sample < end_sample then
         [{ samples := sample_slice audio start_sample end_sample,
            start_time := b0, end_time := b1 }]
       else []) ++
    segments_between audio sample_rate (b1 :: rest)
  | _ => []

/-- src/diarize-cli.cpp lines 105–180: `create_segments`.  Empty change-point
list: the fixed-window fallback for `total_duration > 30`, otherwise one
segment spanning the whole buffer.  Otherwise boundaries
`[0, change_points…, total_duration]` are paired up by `segments_between`. -/
def create_segments (audio : List ℚ) (sample_rate : ℕ) (change_points : List ℚ) :
    List AudioSegment :=
  let td := total_duration audio sample_rate
  if change_points.isEmpty then
    if td > 30 then
      fixed_segments audio sample_rate td 0 (audio.length + 1)
    else
      [{ samples := audio, start_time := 0, end_time := td }]
  else
    segments_between audio sample_rate (0 :: (change_points ++ [td]))

/-- src/diarize-cli.cpp lines 242–250 (`main`): the threshold validation
applied to the parsed command-line threshold before the engine runs. -/
def validate_threshold (threshold : ℚ) : ℚ :=
  let t1 := if threshold > 0.8 then 0.7 else threshold
  if t1 < 0.01 then 0.01 else t1

/-!  ## Speaker clustering (src/speaker-embedder.cpp) -/

/-- src/include/speaker-embedder.h lines 27–28: the clustering state,
`speaker_centroids_` and `speaker_counts_`. -/
structure EmbState where
  speaker_centroids : List (List ℝ)
  speaker_counts : List ℤ

/-- The state of a fresh `SpeakerEmbedder`, and the state `reset_speakers`
restores. -/
def empty_state : EmbState := ⟨[], []⟩

/-- src/speaker-embedder.cpp lines 176–183: `reset_speakers` clears both
lists. -/
def reset_speakers (_st : EmbState) : EmbState := ⟨[], []⟩

/-- src/speaker-embedder.cpp lines 203–215: `cosine_similarity` — 0 for
mismatched sizes or empty vectors, otherwise the dot product clamped to
`[-1, 1]`. -/
noncomputable def cosine_similarity (a b : List ℝ) : ℝ :=
  if a.length ≠ b.length ∨ a = [] then 0
  else max (-1) (min 1 (((a.zip b).map fun p => p.1 * p.2).sum))

/-- src/speaker-embedder.cpp lines 185–201: `normalize_embedding` — divide by
the L2 norm when it exceeds `1e-6`. -/
noncomputable def normalize_embedding (v : List ℝ) : List ℝ :=
  if v = [] then v
  else
    let norm := Real.sqrt ((v.map fun x => x * x).sum)
    if norm > 1 / 1000000 then v.map fun x => x / norm else v

/-- src/speaker-embedder.cpp lines 239–256: `update_speaker_centroid` — no-op
for an out-of-range id; otherwise the running mean over the shared indices,
`count` incremented, and the centroid re-normalized. -/
noncomputable def update_speaker_centroid (st : EmbState) (speaker_id : ℤ)
    (embedding : List ℝ) : EmbState :=
  if speaker_id < 0 ∨ st.speaker_centroids.length ≤ speaker_id.toNat then st
  else
    let i := speaker_id.toNat
    let centroid := st.speaker_centroids.getD i []
    let count := st.speaker_counts.getD i 0
    let updated := (List.range centroid.length).map fun k =>
      if k < embedding.length then
        (centroid.getD k 0 * (count : ℝ) + embedding.getD k 0) / ((count : ℝ) + 1)
      else centroid.getD k 0
    { speaker_centroids := st.speaker_centroids.set i (normalize_embedding updated),
      speaker_counts := st.speaker_counts.set i (count + 1) }

/-- src/speaker-embedder.cpp lines 127–137: the scan over existing centroids
maintaining `(best_similarity, best_speaker)`, starting from `(-1, -1)`;
a centroid replaces the pair only on a strictly greater similarity. -/
noncomputable def best_speaker_scan (embedding : List ℝ) :
    List (List ℝ) → ℕ → ℝ × ℤ → ℝ × ℤ
  | [], _, acc => acc
  | c :: cs, i, acc =>
    best_speaker_scan embedding cs (i + 1)
      (if cosine_similarity embedding c > acc.1 then (cosine_similarity embedding c, (i : ℤ))
       else acc)

/-- src/speaker-embedder.cpp lines 126–165: `find_or_create_speaker`,
returning the assigned id together with the updated state.  Branches in
source order: match above threshold, create under capacity, force-assign to
the best existing id, and the final `return 0` fallback. -/
noncomputable def find_or_create_speaker (st : EmbState) (embedding : List ℝ)
    (threshold : ℝ) (max_speakers : ℤ) : ℤ × EmbState :=
  let best := best_speaker_scan embedding st.speaker_centroids 0 (-1, -1)
  if best.1 > threshold ∧ 0 ≤ best.2 then
    (best.2, update_speaker_centroid st best.2 embedding)
  else if (st.speaker_centroids.length : ℤ) < max_speakers then
    ((st.speaker_centroids.length : ℤ),
     { speaker_centroids := st.speaker_centroids ++ [embedding],
       speaker_counts := st.speaker_counts ++ [1] })
  else if 0 ≤ best.2 then
    (best.2, update_speaker_centroid st best.2 embedding)
  else (0, st)

/-- src/speaker-embedder.cpp lines 167–174: `calculate_confidence` — 0.5 for
an id with no stored profile, otherwise the similarity to that id's centroid
mapped from `[-1,1]` to `[0,1]`. -/
noncomputable def calculate_confidence (st : EmbState) (embedding : List ℝ)
    (speaker_id : ℤ) : ℝ :=
  if speaker_id < 0 ∨ st.speaker_centroids.length ≤ speaker_id.toNat then 1 / 2
  else (cosine_similarity embedding (st.speaker_centroids.getD speaker_id.toNat []) + 1) / 2

/-- A sequence of `find_or_create_speaker` calls in order, returning the final
state and the list of assigned ids. -/
noncomputable def run_find_or_create (threshold : ℝ) (max_speakers : ℤ) (st : EmbState) :
    List (List ℝ) → EmbState × List ℤ
  | [] => (st, [])
  | e :: es =>
    let r := find_or_create_speaker st e threshold max_speakers
    let rest := run_find_or_create threshold max_speakers r.2 es
    (rest.1, r.1 :: rest.2)

/-- The clustering state "at the turn" of the `i`-th embedding of a sequence:
the state after the first `i` calls, starting from the empty state. -/
noncomputable def state_at (threshold : ℝ) (max_speakers : ℤ) (es : List (List ℝ)) (i : ℕ) :
    EmbState :=
  (run_find_or_create threshold max_speakers empty_state (es.take i)).1

/-!  ## Speaker assignment (src/diarize-cli.cpp, assign_speakers)

The external embedding model together with everything inside the per-segment
`try` block that can throw is modelled by an oracle
`E : ℕ → Option (List ℝ)`: `E i = some e` means extraction for the segment at
index `i` yields embedding `e`; `E i = none` means the body throws for that
segment and the `catch` at lines 215–219 runs.  Each segment's assigned
`(speaker_id, confidence)` pair is returned in a list parallel to the
segments. -/

noncomputable def assign_loop (E : ℕ → Option (List ℝ)) (assignment_threshold : ℝ)
    (max_speakers : ℤ) : ℕ → EmbState → List AudioSegment → List (ℤ × ℝ) × EmbState
  | _, st, [] => ([], st)
  | i, st, _seg :: rest =>
    match E i with
    | some embedding =>
      let r := find_or_create_speaker st embedding assignment_threshold max_speakers
      let conf := calculate_confidence r.2 embedding r.1
      let res := assign_loop E assignment_threshold max_speakers (i + 1) r.2 rest
      ((r.1, conf) :: res.1, res.2)
    | none =>
      let res := assign_loop E assignment_threshold max_speakers (i + 1) st rest
      (((i : ℤ) % max_speakers, 1 / 2) :: res.1, res.2)

/-- src/diarize-cli.cpp lines 182–227: `assign_speakers` processes the
segments in order with `assignment_threshold = max(0.3f, options.threshold)`,
starting at segment index 0. -/
noncomputable def assign_speakers (E : ℕ → Option (List ℝ)) (threshold : ℝ)
    (max_speakers : ℤ) (st : EmbState) (segments : List AudioSegment) :
    List (ℤ × ℝ) × EmbState :=
  assign_loop E (max (3 / 10) threshold) max_speakers 0 st segments

/-!  ## Theorems -/

/-- C8 counterexample: the parsed threshold 0.9 is adjusted to 0.7 by the
validation in `main`, not to `min(max(0.9, 0.01), 0.8) = 0.8` as the claim
states. -/
theorem C8_counterexample :
    validate_threshold 0.9 = 0.7 ∧ min (max (0.9 : ℚ) 0.01) 0.8 = 0.8 ∧ (0.7 : ℚ) ≠ 0.8 := by
  refine ⟨?_, by norm_num, by norm_num⟩
  norm_num [validate_threshold]

/-- C8 (amended): `main` adjusts the parsed threshold before processing:
a value above 0.8 becomes 0.7, then a value below 0.01 becomes 0.01; the
result always lies in [0.01, 0.8], and a threshold already in [0.01, 0.8] is
passed through unchanged. -/
theorem C8_threshold_validation_amended (t : ℚ) :
    (0.01 ≤ validate_threshold t ∧ validate_threshold t ≤ 0.8) ∧
    (0.01 ≤ t ∧ t ≤ 0.8 → validate_threshold t = t) ∧
    (0.8 < t → validate_threshold t = 0.7) ∧
    (t < 0.01 → validate_threshold t = 0.01) := by
  have hv : validate_threshold t = if t > 0.8 then (0.7 : ℚ) else if t < 0.01 then 0.01 else t := by
    by_cases h1 : t > 0.8
    · simp only [validate_threshold, if_pos h1]
      norm_num
    · simp only [validate_threshold, if_neg h1]
  rw [hv]
  by_cases h1 : t > 0.8
  · rw [if_pos h1]
    exact ⟨⟨by norm_num, by norm_num⟩, fun hh => absurd h1 (not_lt.mpr hh.2), fun _ => rfl,
      fun hh => by exact absurd h1 (by norm_num at hh ⊢; linarith)⟩
  · rw [if_neg h1]
    by_cases h2 : t < 0.01
    · rw [if_pos h2]
      exact ⟨⟨le_refl _, by norm_num⟩, fun hh => absurd h2 (not_lt.mpr hh.1),
        fun hh => absurd hh h1, fun _ => rfl⟩
    · rw [if_neg h2]
      exact ⟨⟨not_lt.mp h2, not_lt.mp h1⟩, fun _ => rfl,
        fun hh => absurd hh h1, fun hh => absurd hh h2⟩

/-- C10: with an empty profile set and `max_speakers ≤ 0`,
`find_or_create_speaker` returns id 0 and leaves the (empty) state unchanged
for every embedding and threshold, and `calculate_confidence` for id 0
returns the default 0.5. -/
theorem C10_nonpositive_capacity (embedding : List ℝ) (threshold : ℝ) (max_speakers : ℤ)
    (h : max_speakers ≤ 0) :
    find_or_create_speaker empty_state embedding threshold max_speakers = (0, empty_state) ∧
    calculate_confidence empty_state embedding 0 = 1 / 2 := by
  constructor
  · simp only [find_or_create_speaker, empty_state, best_speaker_scan]
    rw [if_neg (by rintro ⟨-, h2⟩; exact absurd h2 (by decide))]
    rw [if_neg (by simpa using by omega : ¬ ((([] : List (List ℝ)).length : ℤ) < max_speakers))]
    rw [if_neg (by decide)]
  · simp only [calculate_confidence, empty_state]
    rw [if_pos (Or.inr (by simp))]

/-- C10 witness: the theorem applied at the empty embedding, threshold 0 and
`max_speakers = -1`. -/
theorem C10_witness :
    (-1 : ℤ) ≤ 0 ∧
    (find_or_create_speaker empty_state [] 0 (-1) = (0, empty_state) ∧
      calculate_confidence empty_state [] 0 = 1 / 2) :=
  ⟨by decide, C10_nonpositive_capacity [] 0 (-1) (by decide)⟩

/-- C9: on a non-empty score sequence the inline peak scan of
`detect_change_points` keeps exactly the indices that
`Utils::Math::find_peaks` with `min_distance = 1` keeps, for every
threshold. -/
theorem C9_peak_scan_equiv (probs : List ℚ) (threshold : ℚ) (_h : probs ≠ []) :
    inline_peak_indices probs threshold = Utils.Math.find_peaks probs threshold 1 := by
  unfold inline_peak_indices Utils.Math.find_peaks
  apply List.filter_congr
  intro i hi
  have h1i : 1 ≤ i := (List.mem_range'_1.mp hi).1
  have hr : List.range' (i - 1) (2 * 1 + 1) = [i - 1, i, i + 1] := by
    have e1 : i - 1 + 1 = i := by omega
    show [i - 1, i - 1 + 1, i - 1 + 1 + 1] = [i - 1, i, i + 1]
    rw [e1]
  rw [hr]
  have hne1 : ((i - 1 : ℕ) == i) = false := by
    simp only [beq_eq_false_iff_ne, ne_eq]
    omega
  have hne2 : ((i + 1 : ℕ) == i) = false := by
    simp only [beq_eq_false_iff_ne, ne_eq]
    omega
  simp only [List.all_cons, List.all_nil, hne1, hne2, beq_self_eq_true, Bool.true_or,
    Bool.true_and, Bool.false_or, Bool.and_true, gt_iff_lt, Bool.and_assoc]

/-- C9 witness: the equivalence applied to the concrete sequence `[0, 1, 0]`
at threshold 0, where both scans keep exactly index 1. -/
theorem C9_witness :
    ([(0 : ℚ), 1, 0] ≠ []) ∧
    inline_peak_indices [(0 : ℚ), 1, 0] 0 = Utils.Math.find_peaks [(0 : ℚ), 1, 0] 0 1 :=
  ⟨by decide, C9_peak_scan_equiv [(0 : ℚ), 1, 0] 0 (by decide)⟩

/-- Every segment the fixed-window fallback loop emits lasts at least 2
seconds: the loop only runs while `start < td - 5`, so the clamped end
`min (start + 25) td` exceeds `start` by more than 5. -/
theorem fixed_segments_duration (audio : List ℚ) (sample_rate : ℕ) (td : ℚ) :
    ∀ (fuel : ℕ) (start : ℚ), ∀ s ∈ fixed_segments audio sample_rate td start fuel,
      2 ≤ s.end_time - s.start_time := by
  intro fuel
  induction fuel with
  | zero => intro start s hs; simp [fixed_segments] at hs
  | succ n ih =>
    intro start s hs
    simp only [fixed_segments] at hs
    by_cases hc : start < td - 5
    · rw [if_pos hc] at hs
      rcases List.mem_append.mp hs with hl | hr
      · by_cases hf : to_sample (min (start + 25) td) sample_rate ≤ audio.length ∧
            to_sample start sample_rate < to_sample (min (start + 25) td) sample_rate
        · rw [if_pos hf] at hl
          rcases List.mem_singleton.mp hl with rfl
          show 2 ≤ min (start + 25) td - start
          rcases min_cases (start + 25) td with ⟨hm, -⟩ | ⟨hm, -⟩ <;> rw [hm] <;> linarith
        · rw [if_neg hf] at hl
          exact absurd hl (List.not_mem_nil s)
      · exact ih (start + 25) s hr
    · rw [if_neg hc] at hs
      exact absurd hs (List.not_mem_nil s)

/-- Every segment `segments_between` emits lasts at least 2 seconds: pairs
closer than 2.0 s are skipped by the explicit guard. -/
theorem segments_between_duration (audio : List ℚ) (sample_rate : ℕ) :
    ∀ (bs : List ℚ), ∀ s ∈ segments_between audio sample_rate bs,
      2 ≤ s.end_time - s.start_time := by
  intro bs
  induction bs with
  | nil => intro s hs; simp [segments_between] at hs
  | cons b0 rest ih =>
    intro s hs
    cases rest with
    | nil => simp [segments_between] at hs
    | cons b1 rest' =>
      simp only [segments_between] at hs
      rcases List.mem_append.mp hs with hl | hr
      · by_cases hd : b1 - b0 < 2
        · rw [if_pos hd] at hl
          exact absurd hl (List.not_mem_nil s)
        · rw [if_neg hd] at hl
          by_cases hf : to_sample b1 sample_rate ≤ audio.length ∧
              to_sample b0 sample_rate < to_sample b1 sample_rate
          · rw [if_pos hf] at hl
            rcases List.mem_singleton.mp hl with rfl
            exact not_lt.mp hd
          · rw [if_neg hf] at hl
            exact absurd hl (List.not_mem_nil s)
      · exact ih s hr

/-- C1 counterexample: a 1-second buffer with no change points yields a
single whole-buffer segment of duration 1 s, strictly less than 2.0 s. -/
theorem C1_counterexample :
    (create_segments [(0 : ℚ)] 1 []).map (fun s => s.end_time - s.start_time) = [1] ∧
    ¬ (2 ≤ (1 : ℚ)) := by
  constructor
  · have htd : total_duration [(0 : ℚ)] 1 = 1 := by
      norm_num [total_duration]
    simp only [create_segments, htd, List.isEmpty_nil, if_pos, if_true]
    rw [if_neg (by norm_num)]
    simp
  · norm_num

/-- C1 (amended): every segment `create_segments` emits either lasts at least
2.0 s, or is the single whole-buffer fallback segment emitted when the
change-point list is empty and the total duration is at most 30 s — that
segment spans `[0, total_duration]` and can be shorter than 2.0 s. -/
theorem C1_min_duration_amended (audio : List ℚ) (sample_rate : ℕ) (change_points : List ℚ)
    (s : AudioSegment) (hs : s ∈ create_segments audio sample_rate change_points) :
    2 ≤ s.end_time - s.start_time ∨
      (change_points = [] ∧ total_duration audio sample_rate ≤ 30 ∧
        s.start_time = 0 ∧ s.end_time = total_duration audio sample_rate) := by
  simp only [create_segments] at hs
  by_cases hcp : change_points.isEmpty
  · rw [if_pos hcp] at hs
    by_cases htd : total_duration audio sample_rate > 30
    · rw [if_pos htd] at hs
      exact Or.inl (fixed_segments_duration audio sample_rate _ _ 0 s hs)
    · rw [if_neg htd] at hs
      rcases List.mem_singleton.mp hs with rfl
      exact Or.inr ⟨List.isEmpty_iff.mp hcp, not_lt.mp htd, rfl, rfl⟩
  · rw [if_neg hcp] at hs
    exact Or.inl (segments_between_duration audio sample_rate _ s hs)

/-- C1 witness: the amended theorem applied to the concrete 1-second buffer,
whose single fallback segment spans `[0, 1]`. -/
theorem C1_witness :
    ((⟨[(0 : ℚ)], 0, 1⟩ : AudioSegment) ∈ create_segments [(0 : ℚ)] 1 []) ∧
    (2 ≤ (⟨[(0 : ℚ)], 0, 1⟩ : AudioSegment).end_time -
        (⟨[(0 : ℚ)], 0, 1⟩ : AudioSegment).start_time ∨
      (([] : List ℚ) = [] ∧ total_duration [(0 : ℚ)] 1 ≤ 30 ∧
        (⟨[(0 : ℚ)], 0, 1⟩ : AudioSegment).start_time = 0 ∧
        (⟨[(0 : ℚ)], 0, 1⟩ : AudioSegment).end_time = total_duration [(0 : ℚ)] 1)) := by
  have hseg : create_segments [(0 : ℚ)] 1 [] = [⟨[(0 : ℚ)], 0, 1⟩] := by
    have htd : total_duration [(0 : ℚ)] 1 = 1 := by
      norm_num [total_duration]
    simp only [create_segments, htd, List.isEmpty_nil, if_true]
    rw [if_neg (by norm_num)]
  have hm : (⟨[(0 : ℚ)], 0, 1⟩ : AudioSegment) ∈ create_segments [(0 : ℚ)] 1 [] := by
    rw [hseg]
    exact List.mem_singleton.mpr rfl
  exact ⟨hm, C1_min_duration_amended [(0 : ℚ)] 1 [] ⟨[(0 : ℚ)], 0, 1⟩ hm⟩

/-- Elements surviving `unique_close` come from the input list. -/
theorem unique_close_subset :
    ∀ (xs : List ℚ) (anchor : ℚ), ∀ y ∈ unique_close anchor xs, y ∈ xs := by
  intro xs
  induction xs with
  | nil => intro anchor y hy; simp [unique_close] at hy
  | cons x xs ih =>
    intro anchor y hy
    simp only [unique_close] at hy
    by_cases hc : |x - anchor| < 1
    · rw [if_pos hc] at hy
      exact List.mem_cons_of_mem x (ih anchor y hy)
    · rw [if_neg hc] at hy
      rcases List.mem_cons.mp hy with rfl | hy'
      · exact List.mem_cons_self y xs
      · exact List.mem_cons_of_mem x (ih x y hy')

/-- On a sorted tail, `unique_close` keeps elements pairwise at least 1.0
apart from the anchor and from each other. -/
theorem unique_close_pairwise :
    ∀ (xs : List ℚ) (anchor : ℚ), List.Sorted (· ≤ ·) (anchor :: xs) →
      List.Pairwise (fun a b => a + 1 ≤ b) (anchor :: unique_close anchor xs) := by
  intro xs
  induction xs with
  | nil =>
    intro anchor _
    simp [unique_close]
  | cons x xs ih =>
    intro anchor hsort
    rcases List.sorted_cons.mp hsort with ⟨hanchor, htail⟩
    simp only [unique_close]
    by_cases hc : |x - anchor| < 1
    · rw [if_pos hc]
      refine ih anchor (List.sorted_cons.mpr ⟨?_, (List.sorted_cons.mp htail).2⟩)
      intro b hb
      exact hanchor b (List.mem_cons_of_mem x hb)
    · rw [if_neg hc]
      have hax : anchor ≤ x := hanchor x (List.mem_cons_self x xs)
      have ha1 : anchor + 1 ≤ x := by
        have := abs_of_nonneg (by linarith : (0 : ℚ) ≤ x - anchor)
        rw [this] at hc
        linarith [not_lt.mp hc]
      have hrest := ih x htail
      refine List.Pairwise.cons ?_ hrest
      intro b hb
      rcases List.mem_cons.mp hb with rfl | hb'
      · exact ha1
      · have := List.rel_of_pairwise_cons hrest hb'
        linarith

/-- Every input point is within strictly 1.0 s at or after some kept point:
the earliest member of each merged cluster is the one kept. -/
theorem unique_close_coverage :
    ∀ (xs : List ℚ) (anchor : ℚ), List.Sorted (· ≤ ·) (anchor :: xs) →
      ∀ y ∈ xs, ∃ r ∈ anchor :: unique_close anchor xs, r ≤ y ∧ y - r < 1 := by
  intro xs
  induction xs with
  | nil => intro anchor _ y hy; simp at hy
  | cons x xs ih =>
    intro anchor hsort y hy
    rcases List.sorted_cons.mp hsort with ⟨hanchor, htail⟩
    simp only [unique_close]
    by_cases hc : |x - anchor| < 1
    · rw [if_pos hc]
      rcases List.mem_cons.mp hy with rfl | hy'
      · refine ⟨anchor, List.mem_cons_self _ _, hanchor y (List.mem_cons_self y xs), ?_⟩
        have hax : anchor ≤ y := hanchor y (List.mem_cons_self y xs)
        have := abs_of_nonneg (by linarith : (0 : ℚ) ≤ y - anchor)
        rw [this] at hc
        exact hc
      · refine ih anchor (List.sorted_cons.mpr ⟨?_, (List.sorted_cons.mp htail).2⟩) y hy'
        intro b hb
        exact hanchor b (List.mem_cons_of_mem x hb)
    · rw [if_neg hc]
      rcases List.mem_cons.mp hy with rfl | hy'
      · exact ⟨y, List.mem_cons_of_mem anchor (List.mem_cons_self y _), le_refl y, by linarith⟩
      · rcases ih x htail y hy' with ⟨r, hr, hry, hyr⟩
        exact ⟨r, List.mem_cons_of_mem anchor hr, hry, hyr⟩

/-- C3: for every candidate list, the sort-and-merge post-processing of
`detect_change_points` returns a strictly ascending list in which any two
kept timestamps are at least 1.0 s apart; every output point comes from the
input, and every input point lies strictly within 1.0 s after some kept
point (the earliest of its cluster). -/
theorem C3_dedup_sorted_spaced (change_points : List ℚ) :
    List.Pairwise (fun a b => a + 1 ≤ b) (dedup_change_points change_points) ∧
    List.Sorted (· < ·) (dedup_change_points change_points) ∧
    (∀ y ∈ dedup_change_points change_points, y ∈ change_points) ∧
    (∀ y ∈ change_points, ∃ r ∈ dedup_change_points change_points, r ≤ y ∧ y - r < 1) := by
  have hperm : List.Perm (List.insertionSort (· ≤ ·) change_points) change_points :=
    List.perm_insertionSort _ change_points
  have hsorted : List.Sorted (· ≤ ·) (List.insertionSort (· ≤ ·) change_points) :=
    List.sorted_insertionSort _ change_points
  rcases hcase : List.insertionSort (· ≤ ·) change_points with - | ⟨x, xs⟩
  · have hd : dedup_change_points change_points = [] := by
      unfold dedup_change_points
      rw [hcase]
    rw [hd]
    refine ⟨List.Pairwise.nil, List.sorted_nil, by simp, ?_⟩
    intro y hy
    have : y ∈ List.insertionSort (· ≤ ·) change_points := hperm.mem_iff.mpr hy
    rw [hcase] at this
    exact absurd this (List.not_mem_nil y)
  · have hd : dedup_change_points change_points = x :: unique_close x xs := by
      unfold dedup_change_points
      rw [hcase]
    rw [hcase] at hsorted
    have hpw := unique_close_pairwise xs x hsorted
    rw [hd]
    refine ⟨hpw, hpw.imp (fun h => by linarith), ?_, ?_⟩
    · intro y hy
      rcases List.mem_cons.mp hy with rfl | hy'
      · exact hperm.mem_iff.mp (by rw [hcase]; exact List.mem_cons_self y xs)
      · have : y ∈ xs := unique_close_subset xs x y hy'
        exact hperm.mem_iff.mp (by rw [hcase]; exact List.mem_cons_of_mem x this)
    · intro y hy
      have hy' : y ∈ x :: xs := by
        rw [← hcase]
        exact hperm.mem_iff.mpr hy
      rcases List.mem_cons.mp hy' with rfl | hy'' 
      · exact ⟨y, List.mem_cons_self _ _, le_refl y, by linarith⟩
      · exact unique_close_coverage xs x hsorted y hy''

/-- Characterization of the fixed-window fallback loop: starting at
`start = 25 * m` with enough fuel, the emitted (start, end) pairs are exactly
`(25k, min (25k + 25) td)` for consecutive `k` from `m`, the loop runs while
`25k < td - 5`, and it stops at the first `k` with `td - 5 ≤ 25k`.  The
sample-range filter never drops a segment because `td * sample_rate` fits in
the buffer and the rate is at least 1. -/
theorem fixed_segments_spec (audio : List ℚ) (sample_rate : ℕ) (td : ℚ)
    (hrate : 0 < sample_rate) (hlen : td * sample_rate ≤ (audio.length : ℚ)) :
    ∀ (fuel m : ℕ), td - 5 - 25 * m ≤ 25 * fuel →
      ∃ j : ℕ,
        ((fixed_segments audio sample_rate td (25 * m) fuel).map fun s =>
            (s.start_time, s.end_time)) =
          (List.range' m j).map (fun k : ℕ => ((25 * (k : ℚ)), min (25 * (k : ℚ) + 25) td)) ∧
        (∀ k : ℕ, m ≤ k → k < m + j → (25 * (k : ℚ)) < td - 5) ∧
        td - 5 ≤ 25 * ((m : ℚ) + (j : ℚ)) := by
  intro fuel
  induction fuel with
  | zero =>
    intro m hfuel
    refine ⟨0, by simp [fixed_segments], fun k h1 h2 => absurd h2 (by omega), ?_⟩
    push_cast at hfuel ⊢
    linarith
  | succ fl ih =>
    intro m hfuel
    by_cases hc : (25 * (m : ℚ)) < td - 5
    · have hrq : (1 : ℚ) ≤ (sample_rate : ℚ) := by
        exact_mod_cast hrate
      have he5 : 5 < min (25 * (m : ℚ) + 25) td - 25 * m := by
        rcases min_cases (25 * (m : ℚ) + 25) td with ⟨hm, -⟩ | ⟨hm, -⟩ <;> rw [hm] <;> linarith
      have hstart_nonneg : (0 : ℚ) ≤ 25 * (m : ℚ) * sample_rate := by positivity
      have hes_le : to_sample (min (25 * (m : ℚ) + 25) td) sample_rate ≤ audio.length := by
        unfold to_sample
        have h1 : min (25 * (m : ℚ) + 25) td * sample_rate ≤ (audio.length : ℚ) := by
          have h2 : min (25 * (m : ℚ) + 25) td ≤ td := min_le_right _ _
          nlinarith
        calc ⌊min (25 * (m : ℚ) + 25) td * sample_rate⌋₊
            ≤ ⌊(audio.length : ℚ)⌋₊ := Nat.floor_le_floor h1
          _ = audio.length := Nat.floor_natCast _
      have hss_lt : to_sample (25 * (m : ℚ)) sample_rate <
          to_sample (min (25 * (m : ℚ) + 25) td) sample_rate := by
        unfold to_sample
        have hstep : 25 * (m : ℚ) * sample_rate + ((5 * sample_rate : ℕ) : ℚ) ≤
            min (25 * (m : ℚ) + 25) td * sample_rate := by
          push_cast
          nlinarith
        have hfl : ⌊25 * (m : ℚ) * sample_rate⌋₊ + 5 * sample_rate =
            ⌊25 * (m : ℚ) * sample_rate + ((5 * sample_rate : ℕ) : ℚ)⌋₊ :=
          (Nat.floor_add_nat hstart_nonneg _).symm
        have hmono : ⌊25 * (m : ℚ) * sample_rate + ((5 * sample_rate : ℕ) : ℚ)⌋₊ ≤
            ⌊min (25 * (m : ℚ) + 25) td * sample_rate⌋₊ := Nat.floor_le_floor hstep
        have hpos : 0 < 5 * sample_rate := by positivity
        omega
      simp only [fixed_segments]
      rw [if_pos hc, if_pos ⟨hes_le, hss_lt⟩]
      have hstep25 : (25 * (m : ℚ)) + 25 = 25 * (((m + 1 : ℕ)) : ℚ) := by
        push_cast
        ring
      obtain ⟨j, hmap, hcond, hstop⟩ := ih (m + 1) (by push_cast at hfuel ⊢; linarith)
      rw [← hstep25] at hmap
      refine ⟨j + 1, ?_, ?_, ?_⟩
      · rw [List.range'_succ]
        simp only [List.map_cons, List.singleton_append, List.map_cons]
        rw [hmap]
      · intro k h1 h2
        rcases eq_or_lt_of_le h1 with rfl | hlt
        · exact hc
        · exact hcond k hlt (by omega)
      · push_cast at hstop ⊢
        linarith
    · simp only [fixed_segments]
      rw [if_neg hc]
      refine ⟨0, by simp, fun k h1 h2 => absurd h2 (by omega), ?_⟩
      push_cast
      linarith [not_lt.mp hc]

/-- C7: with no change points and total duration above 30 s,
`create_segments` emits exactly the fixed 25-second windows starting at 0:
the k-th segment is `(25k, min(25k + 25, total_duration))`, segments are
emitted exactly while `25k < total_duration - 5`, and the loop stops at the
first start with `total_duration - 5 ≤ start`. -/
theorem C7_fixed_window_fallback (audio : List ℚ) (sample_rate : ℕ) (hrate : 0 < sample_rate)
    (h30 : 30 < total_duration audio sample_rate) :
    ∃ n : ℕ,
      ((create_segments audio sample_rate []).map fun s => (s.start_time, s.end_time)) =
        (List.range' 0 n).map (fun k : ℕ => ((25 * (k : ℚ)),
          min (25 * (k : ℚ) + 25) (total_duration audio sample_rate))) ∧
      (∀ k : ℕ, k < n → (25 * (k : ℚ)) < total_duration audio sample_rate - 5) ∧
      total_duration audio sample_rate - 5 ≤ 25 * (n : ℚ) := by
  have hrq : (1 : ℚ) ≤ (sample_rate : ℚ) := by exact_mod_cast hrate
  have hlen : total_duration audio sample_rate * sample_rate ≤ (audio.length : ℚ) := by
    unfold total_duration
    rw [div_mul_cancel₀]
    positivity
  have hcs : create_segments audio sample_rate [] =
      fixed_segments audio sample_rate (total_duration audio sample_rate) 0
        (audio.length + 1) := by
    simp only [create_segments, List.isEmpty_nil, if_true]
    rw [if_pos h30]
  have hfuel : total_duration audio sample_rate - 5 - 25 * ((0 : ℕ) : ℚ) ≤
      25 * ((audio.length + 1 : ℕ) : ℚ) := by
    have hdle : total_duration audio sample_rate ≤ (audio.length : ℚ) := by
      unfold total_duration
      exact div_le_self (by positivity) hrq
    push_cast
    linarith
  obtain ⟨j, hmap, hcond, hstop⟩ :=
    fixed_segments_spec audio sample_rate (total_duration audio sample_rate) hrate hlen
      (audio.length + 1) 0 hfuel
  refine ⟨j, ?_, fun k hk => hcond k (Nat.zero_le k) (by omega), ?_⟩
  · rw [hcs, show (0 : ℚ) = 25 * ((0 : ℕ) : ℚ) by norm_num]
    exact hmap
  · push_cast at hstop ⊢
    linarith

/-- C7 witness: a 40-second buffer (40 samples at rate 1) with no change
points yields exactly the two fixed windows `[0, 25)` and `[25, 40)`. -/
theorem C7_witness :
    0 < 1 ∧ (30 : ℚ) < total_duration (List.replicate 40 (0 : ℚ)) 1 ∧
    (∃ n : ℕ,
      ((create_segments (List.replicate 40 (0 : ℚ)) 1 []).map fun s =>
          (s.start_time, s.end_time)) =
        (List.range' 0 n).map (fun k : ℕ => ((25 * (k : ℚ)),
          min (25 * (k : ℚ) + 25) (total_duration (List.replicate 40 (0 : ℚ)) 1))) ∧
      (∀ k : ℕ, k < n →
        (25 * (k : ℚ)) < total_duration (List.replicate 40 (0 : ℚ)) 1 - 5) ∧
      total_duration (List.replicate 40 (0 : ℚ)) 1 - 5 ≤ 25 * (n : ℚ)) ∧
    ((create_segments (List.replicate 40 (0 : ℚ)) 1 []).map fun s =>
        (s.start_time, s.end_time)) = [((0 : ℚ), 25), (25, 40)] := by
  have htd : total_duration (List.replicate 40 (0 : ℚ)) 1 = 40 := by
    simp [total_duration]
  have h30 : (30 : ℚ) < total_duration (List.replicate 40 (0 : ℚ)) 1 := by
    rw [htd]
    norm_num
  have hex := C7_fixed_window_fallback (List.replicate 40 (0 : ℚ)) 1 (by norm_num) h30
  refine ⟨by norm_num, h30, hex, ?_⟩
  obtain ⟨j, hmap, hcond, hstop⟩ := hex
  rw [htd] at hmap hcond hstop
  have hj2 : 2 ≤ j := by
    by_contra hle
    push_neg at hle
    interval_cases j <;> norm_num at hstop
  have hjle : j ≤ 2 := by
    by_contra hgt
    push_neg at hgt
    have := hcond 2 hgt
    norm_num at this
  have hj : j = 2 := by omega
  subst hj
  rw [hmap]
  norm_num [List.range']

/-- The function `update_speaker_centroid` never changes how many profiles are stored. -/
theorem update_preserves_length (st : EmbState) (speaker_id : ℤ) (embedding : List ℝ) :
    (update_speaker_centroid st speaker_id embedding).speaker_centroids.length =
      st.speaker_centroids.length := by
  unfold update_speaker_centroid
  by_cases h : speaker_id < 0 ∨ st.speaker_centroids.length ≤ speaker_id.toNat
  · rw [if_pos h]
  · rw [if_neg h]
    exact List.length_set _ _ _

/-- One `find_or_create_speaker` call either keeps the profile count or
appends exactly one profile — the new embedding — whose id is the previous
count, and it only appends while strictly below `max_speakers`. -/
theorem find_or_create_step (st : EmbState) (embedding : List ℝ) (threshold : ℝ)
    (max_speakers : ℤ) :
    (find_or_create_speaker st embedding threshold max_speakers).2.speaker_centroids.length =
        st.speaker_centroids.length ∨
      ((find_or_create_speaker st embedding threshold max_speakers).2.speaker_centroids =
          st.speaker_centroids ++ [embedding] ∧
        (find_or_create_speaker st embedding threshold max_speakers).1 =
          (st.speaker_centroids.length : ℤ) ∧
        (st.speaker_centroids.length : ℤ) < max_speakers) := by
  unfold find_or_create_speaker
  by_cases h1 : (best_speaker_scan embedding st.speaker_centroids 0 (-1, -1)).1 > threshold ∧
      0 ≤ (best_speaker_scan embedding st.speaker_centroids 0 (-1, -1)).2
  · rw [if_pos h1]
    exact Or.inl (update_preserves_length st _ embedding)
  · rw [if_neg h1]
    by_cases h2 : (st.speaker_centroids.length : ℤ) < max_speakers
    · rw [if_pos h2]
      exact Or.inr ⟨rfl, rfl, h2⟩
    · rw [if_neg h2]
      by_cases h3 : (0 : ℤ) ≤ (best_speaker_scan embedding st.speaker_centroids 0 (-1, -1)).2
      · rw [if_pos h3]
        exact Or.inl (update_preserves_length st _ embedding)
      · rw [if_neg h3]
        exact Or.inl rfl

/-- The profile count stays at or below `max_speakers` across any call
sequence, from any state already within the bound. -/
theorem run_find_size_le (threshold : ℝ) (max_speakers : ℤ) :
    ∀ (es : List (List ℝ)) (st : EmbState),
      (st.speaker_centroids.length : ℤ) ≤ max_speakers →
      ((run_find_or_create threshold max_speakers st es).1.speaker_centroids.length : ℤ) ≤
        max_speakers := by
  intro es
  induction es with
  | nil => intro st h; exact h
  | cons e es ih =>
    intro st h
    simp only [run_find_or_create]
    apply ih
    rcases find_or_create_step st e threshold max_speakers with hL | ⟨hA, -, hlt⟩
    · rw [hL]
      exact h
    · rw [hA, List.length_append, List.length_singleton]
      push_cast
      omega

/-- C4: starting from the empty profile set, after every call of any
`find_or_create_speaker` sequence with one fixed non-negative `max_speakers`
the stored profile count is at most `max_speakers`; ids are dense and
0-based in creation order (a call either keeps the profile list or appends
the new embedding at the end, returning the previous count as its id); and
`reset_speakers` returns the state to empty. -/
theorem C4_bounded_profiles (threshold : ℝ) (max_speakers : ℤ) (hM : 0 ≤ max_speakers)
    (es : List (List ℝ)) (st : EmbState) (e : List ℝ) :
    ((run_find_or_create threshold max_speakers empty_state es).1.speaker_centroids.length :
        ℤ) ≤ max_speakers ∧
    ((find_or_create_speaker st e threshold max_speakers).2.speaker_centroids.length =
        st.speaker_centroids.length ∨
      ((find_or_create_speaker st e threshold max_speakers).2.speaker_centroids =
          st.speaker_centroids ++ [e] ∧
        (find_or_create_speaker st e threshold max_speakers).1 =
          (st.speaker_centroids.length : ℤ) ∧
        (st.speaker_centroids.length : ℤ) < max_speakers)) ∧
    reset_speakers st = empty_state :=
  ⟨run_find_size_le threshold max_speakers es empty_state (by simpa [empty_state] using hM),
   find_or_create_step st e threshold max_speakers, rfl⟩

/-- C4 witness: the bound, the step shape and the reset at the concrete
sequence `[[1]]` with `max_speakers = 2`. -/
theorem C4_witness :
    (0 : ℤ) ≤ 2 ∧
    (((run_find_or_create 0 2 empty_state [[(1 : ℝ)]]).1.speaker_centroids.length : ℤ) ≤ 2 ∧
    ((find_or_create_speaker empty_state [(1 : ℝ)] 0 2).2.speaker_centroids.length =
        empty_state.speaker_centroids.length ∨
      ((find_or_create_speaker empty_state [(1 : ℝ)] 0 2).2.speaker_centroids =
          empty_state.speaker_centroids ++ [[(1 : ℝ)]] ∧
        (find_or_create_speaker empty_state [(1 : ℝ)] 0 2).1 =
          (empty_state.speaker_centroids.length : ℤ) ∧
        (empty_state.speaker_centroids.length : ℤ) < 2)) ∧
    reset_speakers empty_state = empty_state) :=
  ⟨by decide, C4_bounded_profiles 0 2 (by decide) [[(1 : ℝ)]] empty_state [(1 : ℝ)]⟩

/-- The loop of `assign_speakers` never drops a segment: one outcome per segment. -/
theorem assign_loop_length (E : ℕ → Option (List ℝ)) (aθ : ℝ) (M : ℤ) :
    ∀ (segs : List AudioSegment) (i : ℕ) (st : EmbState),
      (assign_loop E aθ M i st segs).1.length = segs.length := by
  intro segs
  induction segs with
  | nil => intro i st; rfl
  | cons a rest ih =>
    intro i st
    rcases hEi : E i with - | emb <;>
      simp [assign_loop, hEi, ih]

/-- Splitting an `assign_loop` run at a failing position: the failing segment
gets the fallback outcome `(index % max_speakers, 1/2)`, the state passes
through it unchanged, and the suffix is processed from that state with its
original indices. -/
theorem assign_loop_split (E : ℕ → Option (List ℝ)) (aθ : ℝ) (M : ℤ) :
    ∀ (l1 : List AudioSegment) (i : ℕ) (st : EmbState) (s : AudioSegment)
      (l2 : List AudioSegment), E (i + l1.length) = none →
      assign_loop E aθ M i st (l1 ++ s :: l2) =
        ((assign_loop E aθ M i st l1).1 ++
          (((i + l1.length : ℕ) : ℤ) % M, (1 / 2 : ℝ)) ::
            (assign_loop E aθ M (i + l1.length + 1) (assign_loop E aθ M i st l1).2 l2).1,
         (assign_loop E aθ M (i + l1.length + 1) (assign_loop E aθ M i st l1).2 l2).2) := by
  intro l1
  induction l1 with
  | nil =>
    intro i st s l2 hE
    simp only [List.length_nil, Nat.add_zero] at hE
    simp [assign_loop, hE]
  | cons a l1 ih =>
    intro i st s l2 hE
    have hE' : E ((i + 1) + l1.length) = none := by
      rw [show (i + 1) + l1.length = i + (a :: l1).length by simp; omega]
      exact hE
    have harith1 : i + (a :: l1).length = i + 1 + l1.length := by simp; omega
    have harith2 : i + (a :: l1).length + 1 = i + 1 + l1.length + 1 := by simp; omega
    rcases hEi : E i with - | emb <;>
      simp only [harith1, harith2, List.cons_append, List.append_eq, assign_loop, hEi] <;>
      rw [ih (i + 1) _ s l2 hE']

/-- C6: when the processing of the segment at index `i = l1.length` throws
(`E i = none`), `assign_speakers` gives that segment exactly the fallback
outcome `(i % max_speakers, 0.5)`, leaves the clustering state unchanged
through it, processes every following segment from that same state with its
original index, and still produces one outcome per segment — no abort. -/
theorem C6_failure_isolated (E : ℕ → Option (List ℝ)) (threshold : ℝ) (max_speakers : ℤ)
    (st : EmbState) (l1 : List AudioSegment) (s : AudioSegment) (l2 : List AudioSegment)
    (hE : E l1.length = none) :
    assign_speakers E threshold max_speakers st (l1 ++ s :: l2) =
      ((assign_loop E (max (3 / 10) threshold) max_speakers 0 st l1).1 ++
        ((l1.length : ℤ) % max_speakers, (1 / 2 : ℝ)) ::
          (assign_loop E (max (3 / 10) threshold) max_speakers (l1.length + 1)
            (assign_loop E (max (3 / 10) threshold) max_speakers 0 st l1).2 l2).1,
       (assign_loop E (max (3 / 10) threshold) max_speakers (l1.length + 1)
         (assign_loop E (max (3 / 10) threshold) max_speakers 0 st l1).2 l2).2) ∧
    (assign_speakers E threshold max_speakers st (l1 ++ s :: l2)).1.length =
      (l1 ++ s :: l2).length := by
  constructor
  · unfold assign_speakers
    have h0 : E (0 + l1.length) = none := by simpa using hE
    have := assign_loop_split E (max (3 / 10) threshold) max_speakers l1 0 st s l2 h0
    simpa using this
  · unfold assign_speakers
    exact assign_loop_length E (max (3 / 10) threshold) max_speakers (l1 ++ s :: l2) 0 st

/-- C6 witness: the isolation theorem at a concrete one-segment list whose
only segment fails (`E` always `none`), with `max_speakers = 2`. -/
theorem C6_witness :
    (fun _ : ℕ => (none : Option (List ℝ))) ([] : List AudioSegment).length = none ∧
    (assign_speakers (fun _ => none) 0 2 empty_state
        ([] ++ (⟨[], 0, 1⟩ : AudioSegment) :: []) =
      ((assign_loop (fun _ => none) (max (3 / 10) 0) 2 0 empty_state []).1 ++
        ((([] : List AudioSegment).length : ℤ) % 2, (1 / 2 : ℝ)) ::
          (assign_loop (fun _ => none) (max (3 / 10) 0) 2
            (([] : List AudioSegment).length + 1)
            (assign_loop (fun _ => none) (max (3 / 10) 0) 2 0 empty_state []).2 []).1,
       (assign_loop (fun _ => none) (max (3 / 10) 0) 2
         (([] : List AudioSegment).length + 1)
         (assign_loop (fun _ => none) (max (3 / 10) 0) 2 0 empty_state []).2 []).2) ∧
    (assign_speakers (fun _ => none) 0 2 empty_state
        ([] ++ (⟨[], 0, 1⟩ : AudioSegment) :: [])).1.length =
      ([] ++ (⟨[], 0, 1⟩ : AudioSegment) :: []).length) :=
  ⟨rfl, C6_failure_isolated (fun _ => none) 0 2 empty_state [] ⟨[], 0, 1⟩ [] rfl⟩

/-- The dominant-class scan never produces a negative class index from a
non-negative start. -/
theorem class_scan_snd_nonneg (score : ℕ → ℝ) :
    ∀ (l : List ℕ) (acc : ℝ × ℤ), 0 ≤ acc.2 → 0 ≤ (class_scan score l acc).2 := by
  intro l
  induction l with
  | nil => intro acc h; exact h
  | cons c cs ih =>
    intro acc h
    simp only [class_scan]
    apply ih
    by_cases hc : score c > acc.1
    · rw [if_pos hc]
      exact Int.ofNat_nonneg c
    · rw [if_neg hc]
      exact h

/-- The `dominant_class` value is always a valid (non-negative) class index. -/
theorem dominant_scan_snd_nonneg (num_classes : ℕ) (frame : List ℝ) :
    0 ≤ (dominant_scan num_classes frame).2 :=
  class_scan_snd_nonneg _ _ _ le_rfl

/-- Closed form of the stateful per-frame loop: the score of frame `t`
depends only on frame `t` and the dominant class of frame `t - 1` (or the
initial `prev` for the window's first frame). -/
theorem window_scores_from_eq (num_classes : ℕ) :
    ∀ (frames : List (List ℝ)) (prev : ℤ),
      window_scores_from num_classes prev frames =
        (List.range frames.length).map fun t =>
          change_prob num_classes
            (if t = 0 then prev else (dominant_scan num_classes (frames.getD (t - 1) [])).2)
            (frames.getD t []) := by
  intro frames
  induction frames with
  | nil => intro prev; rfl
  | cons f rest ih =>
    intro prev
    simp only [window_scores_from, List.length_cons, List.range_succ_eq_map, List.map_cons,
      List.map_map]
    refine congrArg₂ List.cons ?_ ?_
    · simp [List.getD_cons_zero]
    · rw [ih ((dominant_scan num_classes f).2)]
      apply List.map_congr_left
      intro t ht
      simp only [Function.comp_apply, Nat.succ_eq_add_one, Nat.add_sub_cancel,
        Nat.add_eq_zero, Nat.succ_ne_zero, and_false, if_false]
      cases t with
      | zero => simp
      | succ t' => simp

/-- C2 (amended): across all windows of one buffer, the accumulated change
score of a frame is 0 when the frame is the first frame OF ITS WINDOW (the
scan resets `prev_dominant_class` at every window boundary) or when its
dominant class equals the previous frame's dominant class within the window;
otherwise it is `min(1, 2 * min(1, H / log num_classes))` where `H` is the
entropy of the max-shifted softmax accumulated only over classes whose
probability exceeds `1e-6`. -/
theorem C2_change_score_amended (num_classes : ℕ) (windows : List (List (List ℝ))) :
    accumulated_scores num_classes windows =
      (windows.map fun frames =>
        (List.range frames.length).map fun t =>
          if t = 0 ∨ (dominant_scan num_classes (frames.getD t [])).2 =
              (dominant_scan num_classes (frames.getD (t - 1) [])).2 then 0
          else
            min 1 (min 1 (entropy_acc num_classes (frames.getD t []) /
              Real.log num_classes) * 2)).flatten := by
  unfold accumulated_scores
  congr 1
  apply List.map_congr_left
  intro frames _
  unfold process_window_scores
  rw [window_scores_from_eq]
  apply List.map_congr_left
  intro t _
  by_cases ht0 : t = 0
  · subst ht0
    rw [if_pos rfl, if_pos (Or.inl rfl)]
    unfold change_prob
    rw [if_neg]
    rintro ⟨h1, -⟩
    exact h1 rfl
  · rw [if_neg ht0]
    by_cases heq : (dominant_scan num_classes (frames.getD t [])).2 =
        (dominant_scan num_classes (frames.getD (t - 1) [])).2
    · rw [if_pos (Or.inr heq)]
      unfold change_prob
      rw [if_neg]
      rintro ⟨-, h2⟩
      exact h2 heq.symm
    · rw [if_neg (by rintro (h | h); exact ht0 h; exact heq h)]
      unfold change_prob
      rw [if_pos]
      constructor
      · have := dominant_scan_snd_nonneg num_classes (frames.getD (t - 1) [])
        omega
      · intro hcontr
        exact heq hcontr.symm

/-- C2 counterexample: feed two windows of one frame each — frame scores
`[0, 1]` then `[0, 0]`.  In the accumulated stream, frame 1 is NOT the first
frame and its dominant class (0) differs from frame 0's (1), so the claimed
stream rule assigns it `min(1, 2 * H / log 2)` with `H` the Shannon entropy
of the softmax of `[0, 0]` (spelled out below; it evaluates to 1).  The code
resets `prev_dominant_class` at the window boundary and scores that frame 0,
so the claimed rule over the accumulated stream is violated: 0 ≠ 1. -/
theorem C2_counterexample :
    (accumulated_scores 2 [[[(0 : ℝ), 1]], [[(0 : ℝ), 0]]]).getD 1 0 = 0 ∧
    (dominant_scan 2 [(0 : ℝ), 0]).2 ≠ (dominant_scan 2 [(0 : ℝ), 1]).2 ∧
    min 1 (2 * (-(2 * (Real.exp ((0 : ℝ) - 0) / (Real.exp ((0 : ℝ) - 0) + Real.exp ((0 : ℝ) - 0)) *
        Real.log (Real.exp ((0 : ℝ) - 0) / (Real.exp ((0 : ℝ) - 0) + Real.exp ((0 : ℝ) - 0))))) /
      Real.log 2)) = 1 ∧
    (0 : ℝ) ≠ 1 := by
  have hcp : ∀ f : List ℝ, change_prob 2 (-1) f = 0 := by
    intro f
    unfold change_prob
    rw [if_neg]
    rintro ⟨h1, -⟩
    exact h1 rfl
  refine ⟨?_, ?_, ?_, by norm_num⟩
  · simp [accumulated_scores, process_window_scores, window_scores_from, hcp]
  · have hd1 : (dominant_scan 2 [(0 : ℝ), 1]).2 = 1 := by
      norm_num [dominant_scan, class_scan, List.range']
    have hd0 : (dominant_scan 2 [(0 : ℝ), 0]).2 = 0 := by
      norm_num [dominant_scan, class_scan, List.range']
    rw [hd1, hd0]
    decide
  · have hp : Real.exp ((0 : ℝ) - 0) / (Real.exp ((0 : ℝ) - 0) + Real.exp ((0 : ℝ) - 0)) =
        1 / 2 := by
      norm_num [Real.exp_zero]
    rw [hp]
    have hl2 : Real.log ((1 : ℝ) / 2) = -Real.log 2 := by
      rw [one_div, Real.log_inv]
    rw [hl2]
    have hE : -(2 * ((1 : ℝ) / 2 * -Real.log 2)) = Real.log 2 := by ring
    rw [hE, div_self (ne_of_gt (Real.log_pos one_lt_two))]
    norm_num

/-- The `cosine_similarity` result is clamped: it is never below -1. -/
theorem cosine_similarity_ge_neg_one (a b : List ℝ) : -1 ≤ cosine_similarity a b := by
  unfold cosine_similarity
  by_cases h : a.length ≠ b.length ∨ a = []
  · rw [if_pos h]
    norm_num
  · rw [if_neg h]
    exact le_max_left _ _

/-- Invariant of the best-speaker scan: either no centroid beats the starting
best similarity and the accumulator is returned unchanged, or the result is
the similarity and (absolute) index of the FIRST centroid attaining the
maximum similarity, which strictly exceeds the start. -/
theorem best_speaker_scan_spec (embedding : List ℝ) :
    ∀ (cs : List (List ℝ)) (i : ℕ) (bs : ℝ) (bi : ℤ),
      ((∀ k, k < cs.length → cosine_similarity embedding (cs.getD k []) ≤ bs) ∧
        best_speaker_scan embedding cs i (bs, bi) = (bs, bi)) ∨
      (∃ j, j < cs.length ∧
        (best_speaker_scan embedding cs i (bs, bi)).1 =
          cosine_similarity embedding (cs.getD j []) ∧
        (best_speaker_scan embedding cs i (bs, bi)).2 = ((i + j : ℕ) : ℤ) ∧
        bs < (best_speaker_scan embedding cs i (bs, bi)).1 ∧
        (∀ m, m < j → cosine_similarity embedding (cs.getD m []) <
          (best_speaker_scan embedding cs i (bs, bi)).1) ∧
        (∀ m, m < cs.length → cosine_similarity embedding (cs.getD m []) ≤
          (best_speaker_scan embedding cs i (bs, bi)).1)) := by
  intro cs
  induction cs with
  | nil =>
    intro i bs bi
    left
    exact ⟨fun k hk => absurd hk (by simp), rfl⟩
  | cons c cs ih =>
    intro i bs bi
    by_cases hc : cosine_similarity embedding c > bs
    · have hunfold : best_speaker_scan embedding (c :: cs) i (bs, bi) =
          best_speaker_scan embedding cs (i + 1) (cosine_similarity embedding c, (i : ℤ)) := by
        simp only [best_speaker_scan, if_pos hc]
      rcases ih (i + 1) (cosine_similarity embedding c) (i : ℤ) with
        ⟨hall, hp⟩ | ⟨j, hj, h1, h2, h3, h4, h5⟩
      · right
        refine ⟨0, by simp, ?_, ?_, ?_, fun m hm => absurd hm (Nat.not_lt_zero m), ?_⟩
        · rw [hunfold, hp]
          simp [List.getD_cons_zero]
        · rw [hunfold, hp]
          simp
        · rw [hunfold, hp]
          exact hc
        · intro m hm
          rw [hunfold, hp]
          cases m with
          | zero => exact le_refl _
          | succ m' =>
            rw [List.getD_cons_succ]
            exact hall m' (by simpa using hm)
      · right
        refine ⟨j + 1, by simpa using Nat.succ_lt_succ hj, ?_, ?_, ?_, ?_, ?_⟩
        · rw [hunfold, h1, List.getD_cons_succ]
        · rw [hunfold, h2]
          congr 1
          omega
        · rw [hunfold]
          exact lt_trans hc h3
        · intro m hm
          rw [hunfold]
          cases m with
          | zero => exact h3
          | succ m' =>
            rw [List.getD_cons_succ]
            exact h4 m' (by omega)
        · intro m hm
          rw [hunfold]
          cases m with
          | zero => exact le_of_lt h3
          | succ m' =>
            rw [List.getD_cons_succ]
            exact h5 m' (by simpa using hm)
    · have hunfold : best_speaker_scan embedding (c :: cs) i (bs, bi) =
          best_speaker_scan embedding cs (i + 1) (bs, bi) := by
        simp only [best_speaker_scan, if_neg hc]
      rcases ih (i + 1) bs bi with ⟨hall, hp⟩ | ⟨j, hj, h1, h2, h3, h4, h5⟩
      · left
        refine ⟨?_, by rw [hunfold, hp]⟩
        intro k hk
        cases k with
        | zero => exact not_lt.mp hc
        | succ k' =>
          rw [List.getD_cons_succ]
          exact hall k' (by simpa using hk)
      · right
        refine ⟨j + 1, by simpa using Nat.succ_lt_succ hj, ?_, ?_, ?_, ?_, ?_⟩
        · rw [hunfold, h1, List.getD_cons_succ]
        · rw [hunfold, h2]
          congr 1
          omega
        · rw [hunfold]
          exact h3
        · intro m hm
          rw [hunfold]
          cases m with
          | zero => exact lt_of_le_of_lt (not_lt.mp hc) h3
          | succ m' =>
            rw [List.getD_cons_succ]
            exact h4 m' (by omega)
        · intro m hm
          rw [hunfold]
          cases m with
          | zero => exact le_of_lt (lt_of_le_of_lt (not_lt.mp hc) h3)
          | succ m' =>
            rw [List.getD_cons_succ]
            exact h5 m' (by simpa using hm)

/-- When every existing centroid is strictly below the threshold, the match
branch of `find_or_create_speaker` cannot fire. -/
theorem best_scan_no_match (embedding : List ℝ) (cs : List (List ℝ)) (threshold : ℝ)
    (hall : ∀ c ∈ cs, cosine_similarity embedding c < threshold) :
    ¬ ((best_speaker_scan embedding cs 0 (-1, -1)).1 > threshold ∧
       0 ≤ (best_speaker_scan embedding cs 0 (-1, -1)).2) := by
  rcases best_speaker_scan_spec embedding cs 0 (-1) (-1) with ⟨-, hp⟩ | ⟨j, hj, h1, -, -, -, -⟩
  · rw [hp]
    rintro ⟨-, h2⟩
    exact absurd h2 (by decide)
  · rintro ⟨hgt, -⟩
    have hmem : cs.getD j [] ∈ cs := by
      rw [List.getD_eq_getElem cs [] hj]
      exact List.getElem_mem hj
    rw [h1] at hgt
    exact absurd hgt (not_lt.mpr (le_of_lt (hall _ hmem)))

/-- Reading inside a prefix: `getD` through `take` agrees with `getD`. -/
theorem getD_take_eq (l : List (List ℝ)) (k m : ℕ) (hm : m < k) (hk : k ≤ l.length) :
    (l.take k).getD m [] = l.getD m [] := by
  have h1 : m < (l.take k).length := by
    simp only [List.length_take]
    omega
  have h2 : m < l.length := by omega
  rw [List.getD_eq_getElem _ [] h1, List.getD_eq_getElem _ [] h2]
  have h3 := List.getElem?_take_of_lt (l := l) (n := k) hm
  rw [List.getElem?_eq_getElem h1, List.getElem?_eq_getElem h2] at h3
  exact Option.some_injective _ h3

/-- Running `run_find_or_create` over a concatenation: the second part runs from the
state the first part produced, and the id lists concatenate. -/
theorem run_find_append (threshold : ℝ) (max_speakers : ℤ) :
    ∀ (l1 l2 : List (List ℝ)) (st : EmbState),
      run_find_or_create threshold max_speakers st (l1 ++ l2) =
        ((run_find_or_create threshold max_speakers
            (run_find_or_create threshold max_speakers st l1).1 l2).1,
         (run_find_or_create threshold max_speakers st l1).2 ++
           (run_find_or_create threshold max_speakers
             (run_find_or_create threshold max_speakers st l1).1 l2).2) := by
  intro l1
  induction l1 with
  | nil => intro l2 st; simp [run_find_or_create]
  | cons e l1 ih =>
    intro l2 st
    simp only [List.cons_append, List.append_eq, run_find_or_create]
    rw [ih]

/-- The state "at the turn" of embedding `i + 1` is one
`find_or_create_speaker` step past the state at turn `i`. -/
theorem state_at_succ (threshold : ℝ) (max_speakers : ℤ) (es : List (List ℝ)) (i : ℕ)
    (h : i < es.length) :
    state_at threshold max_speakers es (i + 1) =
      (find_or_create_speaker (state_at threshold max_speakers es i) (es.getD i [])
        threshold max_speakers).2 := by
  unfold state_at
  rw [List.take_succ, List.getElem?_eq_getElem h, List.getD_eq_getElem es [] h]
  rw [run_find_append]
  simp [run_find_or_create]

/-- Creation phase for C5: when each of the first `i ≤ max_speakers = K`
embeddings is dissimilar (below threshold) to every centroid existing at its
turn, each call creates a new profile, so after `i` calls the stored
centroids are exactly the first `i` embeddings and the assigned ids are
`0, …, i-1` in order. -/
theorem C5_creation_phase (threshold : ℝ) (K : ℕ) (es : List (List ℝ))
    (hlen : es.length = K + 1)
    (hdis : ∀ i, i ≤ K → ∀ c ∈ (state_at threshold (K : ℤ) es i).speaker_centroids,
      cosine_similarity (es.getD i []) c < threshold) :
    ∀ i, i ≤ K → (state_at threshold (K : ℤ) es i).speaker_centroids = es.take i ∧
      (run_find_or_create threshold (K : ℤ) empty_state (es.take i)).2 =
        (List.range i).map (fun j : ℕ => (j : ℤ)) := by
  intro i
  induction i with
  | zero => intro _; exact ⟨rfl, rfl⟩
  | succ i ih =>
    intro hi1
    have hiK : i ≤ K := Nat.le_of_succ_le hi1
    have hilen : i < es.length := by omega
    obtain ⟨hcent, hids⟩ := ih hiK
    have hnomatch := best_scan_no_match (es.getD i [])
      (state_at threshold (K : ℤ) es i).speaker_centroids threshold (hdis i hiK)
    have hlen_i : (state_at threshold (K : ℤ) es i).speaker_centroids.length = i := by
      rw [hcent]
      simp only [List.length_take]
      omega
    have hsize : ((state_at threshold (K : ℤ) es i).speaker_centroids.length : ℤ) <
        (K : ℤ) := by
      rw [hlen_i]
      exact_mod_cast (by omega : i < K)
    have hfind : find_or_create_speaker (state_at threshold (K : ℤ) es i) (es.getD i [])
        threshold (K : ℤ) =
        (((state_at threshold (K : ℤ) es i).speaker_centroids.length : ℤ),
         { speaker_centroids :=
             (state_at threshold (K : ℤ) es i).speaker_centroids ++ [es.getD i []],
           speaker_counts := (state_at threshold (K : ℤ) es i).speaker_counts ++ [1] }) := by
      simp only [find_or_create_speaker]
      rw [if_neg hnomatch, if_pos hsize]
    constructor
    · rw [state_at_succ threshold (K : ℤ) es i hilen, hfind]
      show (state_at threshold (K : ℤ) es i).speaker_centroids ++ [es.getD i []] =
        es.take (i + 1)
      rw [hcent, List.take_succ, List.getElem?_eq_getElem hilen,
        List.getD_eq_getElem es [] hilen]
      simp
    · rw [List.take_succ, List.getElem?_eq_getElem hilen]
      simp only [Option.toList_some]
      rw [run_find_append]
      have hstate : (run_find_or_create threshold (K : ℤ) empty_state (es.take i)).1 =
          state_at threshold (K : ℤ) es i := rfl
      rw [hids, hstate]
      simp only [run_find_or_create]
      rw [← List.getD_eq_getElem es [] hilen, hfind, hlen_i, List.range_succ]
      simp

/-- C5: with `max_speakers = K ≥ 1` and `K + 1` embeddings each dissimilar
(below threshold) to every centroid existing at its turn, exactly the ids
`0 … K-1` are created for the first `K` embeddings; the `(K+1)`-th call
creates no profile (the count stays `K`) and returns the id `r` of the first
existing centroid of maximum similarity — every centroid's similarity is at
most `r`'s, and every earlier id is strictly below it. -/
theorem C5_capacity_force_assign (threshold : ℝ) (K : ℕ) (hK : 1 ≤ K) (es : List (List ℝ))
    (hlen : es.length = K + 1)
    (hdis : ∀ i, i ≤ K → ∀ c ∈ (state_at threshold (K : ℤ) es i).speaker_centroids,
      cosine_similarity (es.getD i []) c < threshold) :
    (∀ i, i ≤ K → (state_at threshold (K : ℤ) es i).speaker_centroids = es.take i) ∧
    (run_find_or_create threshold (K : ℤ) empty_state es).1.speaker_centroids.length = K ∧
    ∃ r : ℕ, r < K ∧
      (run_find_or_create threshold (K : ℤ) empty_state es).2 =
        (List.range K).map (fun j : ℕ => (j : ℤ)) ++ [(r : ℤ)] ∧
      (∀ j, j < K → cosine_similarity (es.getD K []) (es.getD j []) ≤
        cosine_similarity (es.getD K []) (es.getD r [])) ∧
      (∀ j, j < r → cosine_similarity (es.getD K []) (es.getD j []) <
        cosine_similarity (es.getD K []) (es.getD r [])) := by
  have hKlen : K < es.length := by omega
  have hcentK := (C5_creation_phase threshold K es hlen hdis K le_rfl).1
  have hidsK := (C5_creation_phase threshold K es hlen hdis K le_rfl).2
  have htakelen : (es.take K).length = K := by
    simp only [List.length_take]
    omega
  have hlenK : (state_at threshold (K : ℤ) es K).speaker_centroids.length = K := by
    rw [hcentK]
    exact htakelen
  have hES : es = es.take K ++ [es.getD K []] := by
    have h1 : es.take (K + 1) = es := by
      rw [← hlen]
      exact List.take_length es
    conv_lhs => rw [← h1]
    rw [List.take_succ, List.getElem?_eq_getElem hKlen, ← List.getD_eq_getElem es [] hKlen]
    simp
  have hrunsplit : run_find_or_create threshold (K : ℤ) empty_state es =
      ((run_find_or_create threshold (K : ℤ) (state_at threshold (K : ℤ) es K)
          [es.getD K []]).1,
       (List.range K).map (fun j : ℕ => (j : ℤ)) ++
         (run_find_or_create threshold (K : ℤ) (state_at threshold (K : ℤ) es K)
           [es.getD K []]).2) := by
    conv_lhs => rw [hES]
    rw [run_find_append]
    have hstate : (run_find_or_create threshold (K : ℤ) empty_state (es.take K)).1 =
        state_at threshold (K : ℤ) es K := rfl
    rw [hidsK, hstate]
  have hsingle : run_find_or_create threshold (K : ℤ) (state_at threshold (K : ℤ) es K)
      [es.getD K []] =
      ((find_or_create_speaker (state_at threshold (K : ℤ) es K) (es.getD K [])
          threshold (K : ℤ)).2,
       [(find_or_create_speaker (state_at threshold (K : ℤ) es K) (es.getD K [])
          threshold (K : ℤ)).1]) := by
    simp [run_find_or_create]
  have hnomatch := best_scan_no_match (es.getD K [])
    (state_at threshold (K : ℤ) es K).speaker_centroids threshold (hdis K le_rfl)
  have hnotsize : ¬ (((state_at threshold (K : ℤ) es K).speaker_centroids.length : ℤ) <
      (K : ℤ)) := by
    rw [hlenK]
    exact lt_irrefl _
  have hbridge : ∀ m, m < K →
      (state_at threshold (K : ℤ) es K).speaker_centroids.getD m [] = es.getD m [] := by
    intro m hm
    rw [hcentK]
    exact getD_take_eq es K m hm (by omega)
  refine ⟨fun i hi => (C5_creation_phase threshold K es hlen hdis i hi).1, ?_⟩
  rcases best_speaker_scan_spec (es.getD K [])
      (state_at threshold (K : ℤ) es K).speaker_centroids 0 (-1) (-1) with
    ⟨hall, hp⟩ | ⟨j, hj, h1, h2, h3, h4, h5⟩
  · have hfind : find_or_create_speaker (state_at threshold (K : ℤ) es K) (es.getD K [])
        threshold (K : ℤ) = (0, state_at threshold (K : ℤ) es K) := by
      simp only [find_or_create_speaker]
      rw [if_neg hnomatch, if_neg hnotsize, if_neg (by rw [hp]; decide)]
    have hsims : ∀ m, m < K → cosine_similarity (es.getD K []) (es.getD m []) = -1 := by
      intro m hm
      have h := hall m (by rw [hlenK]; exact hm)
      rw [hbridge m hm] at h
      exact le_antisymm h (cosine_similarity_ge_neg_one _ _)
    constructor
    · rw [hrunsplit]
      dsimp only
      rw [hsingle]
      dsimp only
      rw [hfind]
      exact hlenK
    · refine ⟨0, hK, ?_, ?_, fun m hm => absurd hm (Nat.not_lt_zero m)⟩
      · rw [hrunsplit]
        dsimp only
        rw [hsingle]
        dsimp only
        rw [hfind]
        norm_num
      · intro m hm
        rw [hsims m hm, hsims 0 hK]
  · have hjK : j < K := by
      rw [hlenK] at hj
      exact hj
    have hfind : find_or_create_speaker (state_at threshold (K : ℤ) es K) (es.getD K [])
        threshold (K : ℤ) =
        ((best_speaker_scan (es.getD K [])
            (state_at threshold (K : ℤ) es K).speaker_centroids 0 (-1, -1)).2,
         update_speaker_centroid (state_at threshold (K : ℤ) es K)
           (best_speaker_scan (es.getD K [])
             (state_at threshold (K : ℤ) es K).speaker_centroids 0 (-1, -1)).2
           (es.getD K [])) := by
      simp only [find_or_create_speaker]
      rw [if_neg hnomatch, if_neg hnotsize, if_pos (by rw [h2]; exact Int.ofNat_nonneg _)]
    have hsimjr : cosine_similarity (es.getD K []) (es.getD j []) =
        (best_speaker_scan (es.getD K [])
          (state_at threshold (K : ℤ) es K).speaker_centroids 0 (-1, -1)).1 := by
      rw [← hbridge j hjK]
      exact h1.symm
    constructor
    · rw [hrunsplit]
      dsimp only
      rw [hsingle]
      dsimp only
      rw [hfind]
      dsimp only
      rw [update_preserves_length]
      exact hlenK
    · refine ⟨j, hjK, ?_, ?_, ?_⟩
      · rw [hrunsplit]
        dsimp only
        rw [hsingle]
        dsimp only
        rw [hfind]
        dsimp only
        rw [h2]
        norm_num
      · intro m hm
        rw [hsimjr]
        have h := h5 m (by rw [hlenK]; exact hm)
        rw [hbridge m hm] at h
        exact h
      · intro m hm
        have hmK : m < K := lt_trans hm hjK
        have h := h4 m hm
        rw [hbridge m hmK] at h
        rw [hsimjr]
        exact h

/-- C5 witness: `K = 1`, threshold `1/2`, embeddings `[1,0]` then `[0,1]`.
The first call creates speaker 0; the second is below threshold against the
only centroid, capacity is full, and it is force-assigned to speaker 0. -/
theorem C5_witness :
    1 ≤ 1 ∧
    ([[(1 : ℝ), 0], [0, 1]] : List (List ℝ)).length = 1 + 1 ∧
    (∀ i, i ≤ 1 → ∀ c ∈ (state_at (1 / 2 : ℝ) ((1 : ℕ) : ℤ)
        [[(1 : ℝ), 0], [0, 1]] i).speaker_centroids,
      cosine_similarity ([[(1 : ℝ), 0], [0, 1]].getD i []) c < 1 / 2) ∧
    ((∀ i, i ≤ 1 → (state_at (1 / 2 : ℝ) ((1 : ℕ) : ℤ)
        [[(1 : ℝ), 0], [0, 1]] i).speaker_centroids =
          ([[(1 : ℝ), 0], [0, 1]] : List (List ℝ)).take i) ∧
      (run_find_or_create (1 / 2 : ℝ) ((1 : ℕ) : ℤ) empty_state
        [[(1 : ℝ), 0], [0, 1]]).1.speaker_centroids.length = 1 ∧
      ∃ r : ℕ, r < 1 ∧
        (run_find_or_create (1 / 2 : ℝ) ((1 : ℕ) : ℤ) empty_state
          [[(1 : ℝ), 0], [0, 1]]).2 =
            (List.range 1).map (fun j : ℕ => (j : ℤ)) ++ [(r : ℤ)] ∧
        (∀ j, j < 1 → cosine_similarity ([[(1 : ℝ), 0], [0, 1]].getD 1 [])
            ([[(1 : ℝ), 0], [0, 1]].getD j []) ≤
          cosine_similarity ([[(1 : ℝ), 0], [0, 1]].getD 1 [])
            ([[(1 : ℝ), 0], [0, 1]].getD r [])) ∧
        (∀ j, j < r → cosine_similarity ([[(1 : ℝ), 0], [0, 1]].getD 1 [])
            ([[(1 : ℝ), 0], [0, 1]].getD j []) <
          cosine_similarity ([[(1 : ℝ), 0], [0, 1]].getD 1 [])
            ([[(1 : ℝ), 0], [0, 1]].getD r []))) := by
  have hstate1 : state_at (1 / 2 : ℝ) ((1 : ℕ) : ℤ) [[(1 : ℝ), 0], [0, 1]] 1 =
      ⟨[[(1 : ℝ), 0]], [1]⟩ := by
    unfold state_at
    show (run_find_or_create (1 / 2 : ℝ) ((1 : ℕ) : ℤ) empty_state [[(1 : ℝ), 0]]).1 = _
    simp only [run_find_or_create, find_or_create_speaker, best_speaker_scan, empty_state]
    rw [if_neg (by norm_num), if_pos (by norm_num)]
    simp
  have hdis : ∀ i, i ≤ 1 → ∀ c ∈ (state_at (1 / 2 : ℝ) ((1 : ℕ) : ℤ)
      [[(1 : ℝ), 0], [0, 1]] i).speaker_centroids,
      cosine_similarity ([[(1 : ℝ), 0], [0, 1]].getD i []) c < 1 / 2 := by
    intro i hi
    interval_cases i
    · intro c hc
      simp [state_at, run_find_or_create, empty_state] at hc
    · rw [hstate1]
      intro c hc
      rcases List.mem_singleton.mp hc with rfl
      show cosine_similarity [(0 : ℝ), 1] [(1 : ℝ), 0] < 1 / 2
      unfold cosine_similarity
      rw [if_neg (by simp)]
      norm_num
  exact ⟨le_rfl, by norm_num,
    hdis, C5_capacity_force_assign (1 / 2) 1 le_rfl [[(1 : ℝ), 0], [0, 1]] (by norm_num) hdis⟩
